import Mathlib

/-!
Verification development for the `jupyterlab-bosque-kernel` repository.

The repository has three Python modules:
* `bosque_kernel/wrapper.py` — `BosqueWrapper` (compile_bosque, find_main_js,
  execute_js, compile_and_execute) and the `BosqueExecutionError` exception;
* `bosque_kernel/kernel.py` — the Jupyter kernel class (`__init__`, `do_execute`,
  `_compile_and_execute`);
* `bosque_kernel/lexer.py` — a Pygments `RegexLexer` for Bosque.

We shallowly embed these below.  External effects (child processes, the file
system, `os.chdir`) are modelled by explicit environment records and state
passing; the Pygments scanning loop is modelled as a fuel-bounded scanner over
`List Char` with one hand-translated matcher per regex rule.
-/

/-- A single-quote character, used when building the exact Python message strings. -/
def squoteStr : String := String.singleton (Char.ofNat 39)

/-- Python whitespace (`str.strip()` and regex `\s`, ASCII range). -/
def isPySpace (c : Char) : Bool :=
  c = ' ' || c = '\t' || c = '\n' || c = '\r' || c = '\x0b' || c = '\x0c'

/-- Does `p` occur literally at the front of `cs`? -/
def startsList : List Char → List Char → Bool
  | [], _ => true
  | _ :: _, [] => false
  | a :: as, b :: bs => a = b && startsList as bs

/-- Python `str.strip()`: drop whitespace from both ends. -/
def pyStrip (s : String) : String :=
  ⟨((s.data.dropWhile isPySpace).reverse.dropWhile isPySpace).reverse⟩

/-- Does `s` end with `suffix`?  (`glob('*.mjs')` selects exactly the names
ending in `.mjs`.) -/
def endsWithStr (s suffix : String) : Bool :=
  startsList suffix.data.reverse s.data.reverse

/-! ## Model of `wrapper.py` -/

/-- Result of `subprocess.run(..., capture_output=True, text=True)`. -/
structure ProcResult where
  returncode : Int
  stdout : String
  stderr : String

/-- The exception class `BosqueExecutionError(Exception)`: it carries its message. -/
structure BosqueExecutionError where
  msg : String
deriving DecidableEq, Repr

/-- Environment for one `compile_and_execute` call: outcome of the compiler
child process, whether `os.path.isdir(output_dir)` holds afterwards, the
regular files present in the output directory, and the outcome of the Node
child process as a function of the script path. -/
structure CompileEnv where
  compileResult : ProcResult
  outputDirIsDir : Bool
  files : List String
  execResult : String → ProcResult

/-- The files present in the working directory (only names are tracked). -/
structure FsState where
  files : List String
deriving DecidableEq, Repr

/-- `main_js_filename` default of `BosqueWrapper.__init__`. -/
def main_js_filename : String := "Main.mjs"

/-- `open(path, 'w')` — ensure the file exists. -/
def writeFile (name : String) (fs : FsState) : FsState :=
  if name ∈ fs.files then fs else ⟨name :: fs.files⟩

/-- `os.remove(path)`. -/
def removeFile (name : String) (fs : FsState) : FsState :=
  ⟨fs.files.filter (fun f => f ≠ name)⟩

/-- Python `s.strip() or default` (the default is used exactly when the
stripped text is empty). -/
def errOrDefault (s dflt : String) : String :=
  if pyStrip s = "" then dflt else pyStrip s

/-- `BosqueWrapper.compile_bosque`: write `source.bsq`, run the compiler,
remove `source.bsq` unconditionally, then check the exit code and the output
directory.  Returns the output directory on success, paired with the final
file-system state. -/
def compile_bosque (env : CompileEnv) (_bosque_code : String) (work_dir : String)
    (fs : FsState) : Except BosqueExecutionError String × FsState :=
  let source_file_path := work_dir ++ "/source.bsq"
  let fs1 := writeFile source_file_path fs
  let output_dir := work_dir ++ "/jsout"
  let compile_proc := env.compileResult
  let fs2 := removeFile source_file_path fs1
  if compile_proc.returncode ≠ 0 then
    (.error ⟨"Compilation failed: " ++
        errOrDefault compile_proc.stderr "Unknown compilation error."⟩, fs2)
  else if !env.outputDirIsDir then
    (.error ⟨"Compilation succeeded but output directory " ++ squoteStr ++ output_dir ++ squoteStr ++
        " was not found."⟩, fs2)
  else
    (.ok output_dir, fs2)

/-- `BosqueWrapper.find_main_js`: prefer `Main.mjs`; otherwise the first entry
of `glob('*.mjs') + glob('*.js')`; otherwise raise.  `os.path.isfile` of the
fixed name is modelled as membership in the directory listing. -/
def find_main_js (env : CompileEnv) (output_dir : String) :
    Except BosqueExecutionError String :=
  let main_js_path := output_dir ++ "/" ++ main_js_filename
  if main_js_filename ∈ env.files then
    .ok main_js_path
  else
    let js_files := env.files.filter (fun f => endsWithStr f ".mjs") ++
      env.files.filter (fun f => endsWithStr f ".js")
    match js_files with
    | f :: _ => .ok (output_dir ++ "/" ++ f)
    | [] => .error ⟨"Main JavaScript file " ++ squoteStr ++ main_js_filename ++ squoteStr ++
        " not found in " ++ squoteStr ++ output_dir ++ squoteStr ++ "."⟩

/-- `BosqueWrapper.execute_js`. -/
def execute_js (env : CompileEnv) (js_path : String) :
    Except BosqueExecutionError String :=
  let execute_proc := env.execResult js_path
  if execute_proc.returncode ≠ 0 then
    .error ⟨"Execution failed: " ++
      errOrDefault execute_proc.stderr "Unknown execution error."⟩
  else
    .ok execute_proc.stdout

/-- `BosqueWrapper.compile_and_execute`: the three steps in sequence; the first
raised error propagates. -/
def compile_and_execute (env : CompileEnv) (bosque_code : String)
    (work_dir : String) (fs : FsState) :
    Except BosqueExecutionError String × FsState :=
  match compile_bosque env bosque_code work_dir fs with
  | (.error e, fs2) => (.error e, fs2)
  | (.ok output_dir, fs2) =>
    match find_main_js env output_dir with
    | .error e => (.error e, fs2)
    | .ok main_js =>
      match execute_js env main_js with
      | .error e => (.error e, fs2)
      | .ok out => (.ok out, fs2)

/-! ## Model of `kernel.py` -/

/-- The two reply dictionaries `do_execute` can return: `{'status': 'ok', ...}`
or `{'status': 'error', 'ename': ..., 'evalue': ...}`. -/
inductive ExecuteReply
  | okReply
  | errReply (ename : String) (evalue : String)
deriving DecidableEq, Repr

/-- The `status` field of a reply. -/
def ExecuteReply.status : ExecuteReply → String
  | .okReply => "ok"
  | .errReply _ _ => "error"

/-- Environment for one `do_execute` request: the scratch directory, whether
`os.chdir(temp_dir)` succeeds, and the outcome of
`self.bosque.compile_and_execute` (the Bridge call). -/
structure KernelEnv where
  temp_dir : String
  chdirOk : Bool
  bridge : Except BosqueExecutionError String

/-- The process working directory. -/
structure ProcState where
  cwd : String
deriving DecidableEq, Repr

/-- `BosqueKernel._compile_and_execute`: any exception from the Bridge is
re-wrapped as `BosqueExecutionError("Execution failed: " + str(e))`. -/
def kernel_compile_and_execute (r : Except BosqueExecutionError String) :
    Except BosqueExecutionError String :=
  match r with
  | .ok out => .ok out
  | .error e => .error ⟨"Execution failed: " ++ e.msg⟩

/-- `BosqueKernel.do_execute`: save `original_cwd`, `os.chdir(self.temp_dir)`
(a failure there raises `RuntimeError`, landing in the generic handler), run
`_compile_and_execute`, and on every path — success, `BosqueExecutionError`
handler, generic handler — `os.chdir(original_cwd)` before returning the reply. -/
def do_execute (env : KernelEnv) (_code : String) (st : ProcState) :
    ExecuteReply × ProcState :=
  let original_cwd := st.cwd
  if env.chdirOk then
    let _st1 : ProcState := ⟨env.temp_dir⟩
    match kernel_compile_and_execute env.bridge with
    | .ok _out => (.okReply, ⟨original_cwd⟩)
    | .error e => (.errReply "BosqueExecutionError" e.msg, ⟨original_cwd⟩)
  else
    (.errReply "RuntimeError" "Failed to change working directory.", ⟨original_cwd⟩)

/-- Environment for `BosqueKernel.__init__`: whether `tempfile.mkdtemp`
succeeds, and the results of `shutil.which('bosque')` and `shutil.which('node')`. -/
structure InitEnv where
  mkdtempOk : Bool
  whichBosque : Option String
  whichNode : Option String

/-- A raised Python exception, distinguished by class. -/
inductive PyError
  | runtimeError (msg : String)
  | nameError (msg : String)
deriving DecidableEq, Repr

/-- The body of the `try:` block of `BosqueKernel.__init__`. -/
def kernelInitBody (env : InitEnv) : Except PyError Unit :=
  if !env.mkdtempOk then
    .error (.runtimeError "Cannot create temporary directory.")
  else
    match env.whichBosque with
    | none => .error (.runtimeError (squoteStr ++ "bosque" ++ squoteStr ++
        " executable not found in PATH."))
    | some _ =>
      match env.whichNode with
      | none => .error (.runtimeError (squoteStr ++ "node" ++ squoteStr ++
          " executable not found in PATH."))
      | some _ => .ok ()

/-- `BosqueKernel.__init__`: the `except Exception as e:` handler executes
`raise es`, and `es` is an undefined name, so evaluating it raises
`NameError("name 'es' is not defined")`.  Any failure of the body therefore
escapes as that `NameError` instead of the original `RuntimeError`. -/
def kernelInit (env : InitEnv) : Except PyError Unit :=
  match kernelInitBody env with
  | .ok _ => .ok ()
  | .error _ => .error (.nameError ("name " ++ squoteStr ++ "es" ++ squoteStr ++ " is not defined"))

/-! ## Model of `lexer.py`

`BosqueLexer` is a Pygments `RegexLexer` (compiled with `re.MULTILINE`).  The
scanner keeps a position and a state; at each position it tries the current
state's rules in order, emits the matched text with the rule's token type and
advances past it; when no rule matches it emits the newline as `Text`
(resetting to the root state) or one `Error` character and continues.  Each
regex rule below is hand-translated to a matcher that returns the length the
regex would match at the current position (`none` when it does not match);
Python `\w`, `\s`, `\b` are translated for their ASCII meaning. -/

/-- The single-quote character. -/
def squoteChar : Char := Char.ofNat 39

/-- Left and right curly-brace characters (for the punctuation class). -/
def lbraceChar : Char := Char.ofNat 123

/-- Right curly-brace character. -/
def rbraceChar : Char := Char.ofNat 125

/-- Python regex `\w` (ASCII): letters, digits, underscore. -/
def isWordChar (c : Char) : Bool := c.isAlpha || c.isDigit || c = '_'

/-- `\w` lifted to an optional character; the ends of the text count as
non-word positions. -/
def isWordO : Option Char → Bool
  | none => false
  | some c => isWordChar c

/-- Python regex `\b` between two (optional) characters. -/
def boundaryB (l r : Option Char) : Bool := isWordO l != isWordO r

/-- Length of the maximal run of characters satisfying `p` at the front
(a greedy `p+` / `p*` match). -/
def runLen (p : Char → Bool) (cs : List Char) : Nat := (cs.takeWhile p).length

/-- The character at offset `k` from the current position, if any. -/
def charAt (cs : List Char) (k : Nat) : Option Char := (cs.drop k).head?

/-- `\b` at offset `k ≥ 1` inside the text being matched. -/
def boundaryAt (cs : List Char) (k : Nat) : Bool :=
  boundaryB ((cs.take k).getLast?) (charAt cs k)

/-- `CONTROL_KEYWORDS` of `BosqueLexer`. -/
def CONTROL_KEYWORDS : List String :=
  ["abort", "assert", "if", "elif", "else", "fn", "pred", "let", "match",
   "ref", "return", "switch", "then", "var", "yield", "ensures", "invariant",
   "example", "requires", "validate", "softcheck", "errtest", "chektest"]

/-- `OTHER_KEYWORDS` of `BosqueLexer`. -/
def OTHER_KEYWORDS : List String :=
  ["recursive", "action", "_debug", "bsqon", "example", "do", "fail",
   "implements", "debug", "release", "safety", "spec", "test", "api",
   "as", "concept", "const", "declare", "enum", "entity", "ensures",
   "field", "function", "invariant", "method", "namespace", "of",
   "provides", "requires", "in", "task", "datatype", "using", "validate",
   "when", "event", "status", "resource", "predicate", "softcheck",
   "errtest", "chektest", "operator", "variant"]

/-- `KEYWORDS = CONTROL_KEYWORDS + OTHER_KEYWORDS`. -/
def KEYWORDS : List String := CONTROL_KEYWORDS ++ OTHER_KEYWORDS

/-- The word alternatives of `CONSTANTS_LANGUAGE_REGEX`. -/
def CONSTANTS_LANGUAGE : List String :=
  ["none", "true", "false", "fail", "ok", "some", "result", "option", "env",
   "this", "self"]

/-- Alternation `\b(w1|w2|...)\b` over whole words, tried in order: the first
word that occurs at the front and is followed by a word boundary wins.  (At
most one alternative can satisfy both boundaries, so the order is immaterial,
but we keep the regex engine's first-match rule.) -/
def findWordAlt : List String → List Char → Option Nat
  | [], _ => none
  | w :: ws, cs =>
    let wl := w.toList
    if startsList wl cs && boundaryB wl.getLast? (charAt cs wl.length) then
      some wl.length
    else findWordAlt ws cs

/-- Rule `(r'\s+', Text)`. -/
def matchSpace (_prev : Option Char) (cs : List Char) : Option Nat :=
  let n := runLen isPySpace cs
  if n = 0 then none else some n

/-- Rule `(r'%%.*$', Comment.Single)`: `.` excludes the newline and the
`re.MULTILINE` `$` matches before a newline or at the end of the text. -/
def matchCommentSingle (_prev : Option Char) (cs : List Char) : Option Nat :=
  match cs with
  | '%' :: '%' :: rest => some (2 + runLen (fun c => c ≠ '\n') rest)
  | _ => none

/-- Rule `(r'%\*\*', Comment.Multiline, 'comment-multiline-double-dash')`. -/
def matchPctStarStar (_prev : Option Char) (cs : List Char) : Option Nat :=
  match cs with
  | '%' :: '*' :: '*' :: _ => some 3
  | _ => none

/-- Rule `(r'%\*', Comment.Multiline, 'comment-multiline')`. -/
def matchPctStar (_prev : Option Char) (cs : List Char) : Option Nat :=
  match cs with
  | '%' :: '*' :: _ => some 2
  | _ => none

/-- Rule `(r'"', String.Double, 'string-double')` (also the closing-quote rule
of the `string-double` state). -/
def matchDQuote (_prev : Option Char) (cs : List Char) : Option Nat :=
  match cs with
  | '"' :: _ => some 1
  | _ => none

/-- Rule `(r"'", String.Single, 'string-single')` (also the closing-quote rule
of the `string-single` state). -/
def matchSQuote (_prev : Option Char) (cs : List Char) : Option Nat :=
  match cs with
  | c :: _ => if c = squoteChar then some 1 else none
  | [] => none

/-- `KEYWORDS_REGEX = \b(abort|assert|...)\b`. -/
def matchKeywords (prev : Option Char) (cs : List Char) : Option Nat :=
  if boundaryB prev cs.head? then findWordAlt KEYWORDS cs else none

/-- `CONSTANTS_LANGUAGE_REGEX = \b(none|true|...)\b`. -/
def matchConstLang (prev : Option Char) (cs : List Char) : Option Nat :=
  if boundaryB prev cs.head? then findWordAlt CONSTANTS_LANGUAGE cs else none

/-- The suffix class `[inIN]` of the first numeric branch. -/
def numSuffix (c : Char) : Bool := c = 'i' || c = 'n' || c = 'I' || c = 'N'

/-- Numeric branch `\b(([0-9]+)[inIN])\b` (after the shared leading `\b` and
with `d` the greedy digit-run length, `d ≥ 1`).  A shorter digit run cannot
resurrect the match (the following character would be a digit), so the greedy
run is the only candidate. -/
def branchA (cs : List Char) (d : Nat) : Option Nat :=
  match charAt cs d with
  | some c => if numSuffix c && boundaryAt cs (d + 1) then some (d + 1) else none
  | none => none

/-- Numeric branch `\b((([0-9]+))[R]|(([0-9]+)/([0-9]+)[R]))\b`. -/
def branchB (cs : List Char) (d : Nat) : Option Nat :=
  match charAt cs d with
  | some 'R' => if boundaryAt cs (d + 1) then some (d + 1) else none
  | some '/' =>
    let d2 := runLen Char.isDigit (cs.drop (d + 1))
    if d2 = 0 then none
    else
      match charAt cs (d + 1 + d2) with
      | some 'R' =>
        if boundaryAt cs (d + 1 + d2 + 1) then some (d + 1 + d2 + 1) else none
      | _ => none
  | _ => none

/-- The float suffix `[fd]` followed by the closing `\b`, at offset `q`. -/
def fdSuffix (cs : List Char) (q : Nat) : Option Nat :=
  match charAt cs q with
  | some c => if (c = 'f' || c = 'd') && boundaryAt cs (q + 1) then some (q + 1) else none
  | none => none

/-- Numeric branch `\b(([0-9]+\.[0-9]+([eE][-+]?[0-9]+)?[fd]))\b`.  When the
character after the fraction is `e`/`E` the optional exponent group must
succeed: backtracking to the no-exponent reading would require `[fd]` to match
that same `e`/`E`, which is impossible. -/
def branchC (cs : List Char) (d : Nat) : Option Nat :=
  match charAt cs d with
  | some '.' =>
    let d2 := runLen Char.isDigit (cs.drop (d + 1))
    if d2 = 0 then none
    else
      let p := d + 1 + d2
      match charAt cs p with
      | some c =>
        if c = 'e' || c = 'E' then
          let sgn : Nat :=
            match charAt cs (p + 1) with
            | some '+' => 1
            | some '-' => 1
            | _ => 0
          let d3 := runLen Char.isDigit (cs.drop (p + 1 + sgn))
          if d3 = 0 then none else fdSuffix cs (p + 1 + sgn + d3)
        else fdSuffix cs p
      | none => none
  | _ => none

/-- Numeric branch `\b([0-9]+)\b`. -/
def branchD (cs : List Char) (d : Nat) : Option Nat :=
  if boundaryAt cs d then some d else none

/-- `CONSTANTS_NUMERIC_REGEX`: the four branches in alternation order; all
start `\b[0-9]`, so the leading boundary and the greedy digit run `d` are
shared. -/
def matchNumeric (prev : Option Char) (cs : List Char) : Option Nat :=
  if boundaryB prev cs.head? then
    let d := runLen Char.isDigit cs
    if d = 0 then none
    else
      match branchA cs d with
      | some n => some n
      | none =>
        match branchB cs d with
        | some n => some n
        | none =>
          match branchC cs d with
          | some n => some n
          | none => branchD cs d
  else none

/-- First branch of `TYPES_REGEX`:
`((([A-Z][_a-zA-Z0-9]+)::)*([A-Z][_a-zA-Z0-9]+))` followed by `\b`, relative
to the current suffix.  The greedy star first tries to read a qualifier
`[A-Z]\w+::` and recurse; if the rest fails it falls back to using the run as
the final segment.  Inside a segment the greedy `\w+` cannot backtrack (a
shorter run would leave a word character where `::` or `\b` is required), so
each segment is the maximal word run.  Fuel decreases on each recursive call;
`cs.length + 1` is always enough since every qualifier consumes at least four
characters. -/
def typesSeg : Nat → List Char → Option Nat
  | 0, _ => none
  | fuel + 1, cs =>
    let r := runLen isWordChar cs
    match cs.head? with
    | some c =>
      if c.isUpper && 2 ≤ r then
        if startsList [':', ':'] (cs.drop r) then
          match typesSeg fuel (cs.drop (r + 2)) with
          | some t => some (r + 2 + t)
          | none => if boundaryAt cs r then some r else none
        else if boundaryAt cs r then some r else none
      else none
    | none => none

/-- `TYPES_REGEX = \b((([A-Z][_a-zA-Z0-9]+)::)*([A-Z][_a-zA-Z0-9]+))\b|\b[A-Z]\b`. -/
def matchTypes (prev : Option Char) (cs : List Char) : Option Nat :=
  if boundaryB prev cs.head? then
    match typesSeg (cs.length + 1) cs with
    | some n => some n
    | none =>
      match cs.head? with
      | some c => if c.isUpper && boundaryAt cs 1 then some 1 else none
      | none => none
  else none

/-- `VARIABLES_REGEX = \b([$]|([$]?([_a-z]|[_a-z][_a-zA-Z0-9]+)))\b`.
`$` is not a word character, so with `$` at the front the leading `\b` needs a
word character before the position, and the first alternative `[$]` then
matches (length 1) exactly when the next character is a word character; the
second alternative cannot fire for `$` (it would need `[_a-z]` right after,
but then the first alternative already matched).  With `[_a-z]` at the front
the inner alternation plus the closing `\b` match exactly the maximal word
run. -/
def matchVariables (prev : Option Char) (cs : List Char) : Option Nat :=
  match cs with
  | [] => none
  | c :: rest =>
    if boundaryB prev (some c) then
      if c = '$' then
        if isWordO rest.head? then some 1 else none
      else if c = '_' || c.isLower then
        some (1 + runLen isWordChar rest)
      else none
    else none

/-- `FUNCTION_NAME_REGEX = \b([a-zA-Z_][a-zA-Z0-9_]*)\s*(?=\()`: an identifier,
greedy whitespace, and a lookahead for `(` (not consumed). -/
def matchFunctionName (prev : Option Char) (cs : List Char) : Option Nat :=
  match cs with
  | [] => none
  | c :: rest =>
    if (c.isAlpha || c = '_') && boundaryB prev (some c) then
      let idlen := 1 + runLen isWordChar rest
      let sp := runLen isPySpace (cs.drop idlen)
      match charAt cs (idlen + sp) with
      | some p => if p = '(' then some (idlen + sp) else none
      | none => none
    else none

/-- The operator class `[+\-*/=<>!]`. -/
def isOpChar (c : Char) : Bool :=
  c = '+' || c = '-' || c = '*' || c = '/' || c = '=' || c = '<' || c = '>' || c = '!'

/-- Rule `(r'[+\-*/=<>!]+', Operator)`. -/
def matchOperators (_prev : Option Char) (cs : List Char) : Option Nat :=
  let n := runLen isOpChar cs
  if n = 0 then none else some n

/-- The punctuation class of `(r'[{}()\[\];,]', Punctuation)`. -/
def isPunctChar (c : Char) : Bool :=
  c = lbraceChar || c = rbraceChar || c = '(' || c = ')' || c = '[' || c = ']' ||
    c = ';' || c = ','

/-- Rule `(r'[{}()\[\];,]', Punctuation)`. -/
def matchPunct (_prev : Option Char) (cs : List Char) : Option Nat :=
  match cs with
  | c :: _ => if isPunctChar c then some 1 else none
  | [] => none

/-- Rule `(r'\*%', Comment.Multiline, '#pop')` of both comment states. -/
def matchCloseComment (_prev : Option Char) (cs : List Char) : Option Nat :=
  match cs with
  | c1 :: c2 :: _ => if c1 = '*' && c2 = '%' then some 2 else none
  | _ => none

/-- Rule `(r'[^*%]+', Comment.Multiline)`. -/
def matchCommentPlain (_prev : Option Char) (cs : List Char) : Option Nat :=
  let n := runLen (fun c => !(c = '*' || c = '%')) cs
  if n = 0 then none else some n

/-- Rule `(r'[*/%]+', Comment.Multiline)`. -/
def matchCommentSpecials (_prev : Option Char) (cs : List Char) : Option Nat :=
  let n := runLen (fun c => c = '*' || c = '/' || c = '%') cs
  if n = 0 then none else some n

/-- Rules `(r"\\'", String.Escape)` of `string-double` and `(r'\\"', ...)` of
`string-single`: a backslash followed by the specific quote. -/
def matchEscQuote (q : Char) (_prev : Option Char) (cs : List Char) : Option Nat :=
  match cs with
  | c1 :: c2 :: _ => if c1 = '\\' && c2 = q then some 2 else none
  | _ => none

/-- Rule `(r'\\.', String.Escape)`: a backslash followed by any character other
than a newline (`.` does not match `\n`). -/
def matchEscAny (_prev : Option Char) (cs : List Char) : Option Nat :=
  match cs with
  | c1 :: c2 :: _ => if c1 = '\\' && c2 ≠ '\n' then some 2 else none
  | _ => none

/-- Rule `(r'[^"\\]+', String.Double)`. -/
def matchStrBodyD (_prev : Option Char) (cs : List Char) : Option Nat :=
  let n := runLen (fun c => !(c = '"' || c = '\\')) cs
  if n = 0 then none else some n

/-- Rule `(r"[^'\\]+", String.Single)`. -/
def matchStrBodyS (_prev : Option Char) (cs : List Char) : Option Nat :=
  let n := runLen (fun c => !(c = squoteChar || c = '\\')) cs
  if n = 0 then none else some n

/-- The lexer states.  Only the root state pushes, and every pop returns to the
root state, so the Pygments state stack is equivalent to a single state. -/
inductive LexState
  | root
  | commentMD
  | commentM
  | stringD
  | stringS
deriving DecidableEq, Repr

/-- The Pygments token types used by `BosqueLexer` (an `Error` token is what
the scanner emits at a position where no rule matches). -/
inductive TokKind
  | text
  | commentSingle
  | commentMultiline
  | stringDouble
  | stringSingle
  | stringEscape
  | keyword
  | constantLanguage
  | constantNumeric
  | nameClass
  | nameVariable
  | nameFunction
  | operatorTok
  | punctuation
  | errorTok
deriving DecidableEq, Repr

/-- One emitted token: its type and its text (span of the input). -/
structure Tok where
  kind : TokKind
  text : List Char
deriving DecidableEq, Repr

/-- One rule of a state: a matcher, the token type to emit, and the state the
scanner is in afterwards (`next` is the state itself for rules without a state
action). -/
structure LexRule where
  matcher : Option Char → List Char → Option Nat
  kind : TokKind
  next : LexState

/-- The `'root'` state rules, in source order. -/
def rootRules : List LexRule :=
  [⟨matchSpace, .text, .root⟩,
   ⟨matchCommentSingle, .commentSingle, .root⟩,
   ⟨matchPctStarStar, .commentMultiline, .commentMD⟩,
   ⟨matchPctStar, .commentMultiline, .commentM⟩,
   ⟨matchDQuote, .stringDouble, .stringD⟩,
   ⟨matchSQuote, .stringSingle, .stringS⟩,
   ⟨matchKeywords, .keyword, .root⟩,
   ⟨matchConstLang, .constantLanguage, .root⟩,
   ⟨matchNumeric, .constantNumeric, .root⟩,
   ⟨matchTypes, .nameClass, .root⟩,
   ⟨matchVariables, .nameVariable, .root⟩,
   ⟨matchFunctionName, .nameFunction, .root⟩,
   ⟨matchOperators, .operatorTok, .root⟩,
   ⟨matchPunct, .punctuation, .root⟩]

/-- The `'comment-multiline-double-dash'` state rules. -/
def commentMDRules : List LexRule :=
  [⟨matchCloseComment, .commentMultiline, .root⟩,
   ⟨matchCommentPlain, .commentMultiline, .commentMD⟩,
   ⟨matchCommentSpecials, .commentMultiline, .commentMD⟩]

/-- The `'comment-multiline'` state rules. -/
def commentMRules : List LexRule :=
  [⟨matchCloseComment, .commentMultiline, .root⟩,
   ⟨matchCommentPlain, .commentMultiline, .commentM⟩,
   ⟨matchCommentSpecials, .commentMultiline, .commentM⟩]

/-- The `'string-double'` state rules. -/
def stringDRules : List LexRule :=
  [⟨matchEscQuote squoteChar, .stringEscape, .stringD⟩,
   ⟨matchEscAny, .stringEscape, .stringD⟩,
   ⟨matchStrBodyD, .stringDouble, .stringD⟩,
   ⟨matchDQuote, .stringDouble, .root⟩]

/-- The `'string-single'` state rules. -/
def stringSRules : List LexRule :=
  [⟨matchEscQuote '"', .stringEscape, .stringS⟩,
   ⟨matchEscAny, .stringEscape, .stringS⟩,
   ⟨matchStrBodyS, .stringSingle, .stringS⟩,
   ⟨matchSQuote, .stringSingle, .root⟩]

/-- The rule list of each state. -/
def rulesOf : LexState → List LexRule
  | .root => rootRules
  | .commentMD => commentMDRules
  | .commentM => commentMRules
  | .stringD => stringDRules
  | .stringS => stringSRules

/-- Try the rules in order; the first whose matcher succeeds determines the
token type, the match length and the next state. -/
def tryRules : List LexRule → Option Char → List Char → Option (TokKind × Nat × LexState)
  | [], _, _ => none
  | r :: rs, prev, cs =>
    match r.matcher prev cs with
    | some n => some (r.kind, n, r.next)
    | none => tryRules rs prev cs

/-- One step of `RegexLexer.get_tokens_unprocessed`: try the current state's
rules; when none matches, a newline resets the state stack to root and is
emitted as `Text`, and any other character is emitted as a one-character
`Error` token and scanning continues. -/
def lexStep (st : LexState) (prev : Option Char) (cs : List Char) :
    TokKind × Nat × LexState :=
  match tryRules (rulesOf st) prev cs with
  | some r => r
  | none =>
    match cs.head? with
    | some c => if c = '\n' then (.text, 1, .root) else (.errorTok, 1, st)
    | none => (.text, 0, st)

/-- The scanning loop, with fuel.  Every step consumes at least one character
(see `lexStep_pos`), so fuel `cs.length + 1` always completes the scan. -/
def scanFuel : Nat → LexState → Option Char → List Char → List Tok
  | 0, _, _, _ => []
  | _ + 1, _, _, [] => []
  | fuel + 1, st, prev, c :: rest =>
    match lexStep st prev (c :: rest) with
    | (k, n, st2) =>
      ⟨k, (c :: rest).take n⟩ ::
        scanFuel fuel st2 ((c :: rest).take n).getLast? ((c :: rest).drop n)

/-- `get_tokens` of the lexer on an input text. -/
def tokenize (s : List Char) : List Tok :=
  scanFuel (s.length + 1) .root none s

/-- The concatenation of the token texts. -/
def joinTexts (ts : List Tok) : List Char := (ts.map Tok.text).flatten

/-- Does the close marker `*%` occur anywhere in the text?  (Used to phrase
"the block comment is unterminated".) -/
def hasStarPct : List Char → Bool
  | [] => false
  | c :: rest => (c = '*' && rest.head? = some '%') || hasStarPct rest

/-! ## Claims about `wrapper.py` and `kernel.py` -/

/-- The second component (the file-system state) of `compile_and_execute` is
the state left by `compile_bosque`; the later steps do not touch it. -/
theorem compile_and_execute_snd (env : CompileEnv) (code work_dir : String)
    (fs : FsState) :
    (compile_and_execute env code work_dir fs).2 =
      (compile_bosque env code work_dir fs).2 := by
  unfold compile_and_execute
  rcases h : compile_bosque env code work_dir fs with ⟨r, fs2⟩
  cases r with
  | error e => simp
  | ok dir =>
    cases hf : find_main_js env dir with
    | error e => simp [hf]
    | ok js =>
      cases he : execute_js env js with
      | error e => simp [hf, he]
      | ok out => simp [hf, he]

/-- C1: for every source text and working directory, `compile_and_execute`
fails with the compilation-failure kind (message prefix `Compilation failed: `
followed by the stripped compiler stderr, or the fixed generic message when
that is empty) when the compiler exits non-zero; fails with the distinct
execution-failure kind (prefix `Execution failed: `) when the runtime exits
non-zero; otherwise returns the runtime's captured standard output; and the
two failure kinds are distinguishable (no message carries both prefixes). -/
theorem claim_C1 (env : CompileEnv) (code work_dir : String) (fs : FsState) :
    (env.compileResult.returncode ≠ 0 →
      (compile_and_execute env code work_dir fs).1 =
        .error ⟨"Compilation failed: " ++
          errOrDefault env.compileResult.stderr "Unknown compilation error."⟩)
    ∧ (∀ js, env.compileResult.returncode = 0 → env.outputDirIsDir = true →
        find_main_js env (work_dir ++ "/jsout") = .ok js →
        (env.execResult js).returncode ≠ 0 →
        (compile_and_execute env code work_dir fs).1 =
          .error ⟨"Execution failed: " ++
            errOrDefault (env.execResult js).stderr "Unknown execution error."⟩)
    ∧ (∀ js, env.compileResult.returncode = 0 → env.outputDirIsDir = true →
        find_main_js env (work_dir ++ "/jsout") = .ok js →
        (env.execResult js).returncode = 0 →
        (compile_and_execute env code work_dir fs).1 = .ok (env.execResult js).stdout)
    ∧ (∀ a b : String, "Compilation failed: " ++ a ≠ "Execution failed: " ++ b) := by
  refine ⟨?_, ?_, ?_, ?_⟩
  · intro h
    simp [compile_and_execute, compile_bosque, h]
  · intro js h0 hdir hfind hexec
    simp [compile_and_execute, compile_bosque, h0, hdir, hfind, execute_js, hexec]
  · intro js h0 hdir hfind hexec
    simp [compile_and_execute, compile_bosque, h0, hdir, hfind, execute_js, hexec]
  · intro a b h
    have h3 : 'C' :: ("ompilation failed: ".data ++ a.data) =
        'E' :: ("xecution failed: ".data ++ b.data) := congrArg String.data h
    simp at h3

/-- A run whose compiler fails with stderr `parse error at line 3`. -/
def envCompFail : CompileEnv :=
  ⟨⟨1, "", "parse error at line 3"⟩, true, [], fun _ => ⟨0, "", ""⟩⟩

/-- A run whose compiler succeeds and whose runtime fails with stderr `boom`. -/
def envExecFail : CompileEnv :=
  ⟨⟨0, "", ""⟩, true, ["Main.mjs"], fun _ => ⟨1, "", "boom"⟩⟩

/-- A fully successful run printing `hi`. -/
def envAllOk : CompileEnv :=
  ⟨⟨0, "", ""⟩, true, ["Main.mjs"], fun _ => ⟨0, "hi", ""⟩⟩

/-- Witness for C1 at concrete runs: a compiler failure, a runtime failure and
a success. -/
theorem claim_C1_witness :
    (compile_and_execute envCompFail "c" "/w" ⟨[]⟩).1 =
      .error ⟨"Compilation failed: parse error at line 3"⟩
    ∧ (compile_and_execute envExecFail "c" "/w" ⟨[]⟩).1 =
      .error ⟨"Execution failed: boom"⟩
    ∧ (compile_and_execute envAllOk "c" "/w" ⟨[]⟩).1 = .ok "hi" := by
  refine ⟨?_, ?_, ?_⟩
  · have h := (claim_C1 envCompFail "c" "/w" ⟨[]⟩).1 (by decide)
    rw [h]
    simp only [Except.error.injEq]
    decide
  · have h := (claim_C1 envExecFail "c" "/w" ⟨[]⟩).2.1 "/w/jsout/Main.mjs"
      rfl rfl (by rfl) (by decide)
    rw [h]
    simp only [Except.error.injEq]
    decide
  · have h := (claim_C1 envAllOk "c" "/w" ⟨[]⟩).2.2.1 "/w/jsout/Main.mjs"
      rfl rfl (by rfl) rfl
    rw [h]
    rfl

/-- C2: after a successful compile, `find_main_js` selects the fixed-name
entry `Main.mjs` when present; when it is absent and exactly one file with a
JS-module extension exists, that file is selected; and when no file with a
JS-module extension exists it fails (the `BosqueExecutionError` of the
locate phase, which the specification groups under `CompilationError`). -/
theorem claim_C2 (env : CompileEnv) (dir : String) :
    (main_js_filename ∈ env.files →
      find_main_js env dir = .ok (dir ++ "/" ++ main_js_filename))
    ∧ (∀ f, main_js_filename ∉ env.files →
        env.files.filter (fun g => endsWithStr g ".mjs") ++
          env.files.filter (fun g => endsWithStr g ".js") = [f] →
        find_main_js env dir = .ok (dir ++ "/" ++ f))
    ∧ (main_js_filename ∉ env.files →
        env.files.filter (fun g => endsWithStr g ".mjs") = [] →
        env.files.filter (fun g => endsWithStr g ".js") = [] →
        find_main_js env dir = .error ⟨"Main JavaScript file " ++ squoteStr ++
          main_js_filename ++ squoteStr ++ " not found in " ++ squoteStr ++ dir ++
          squoteStr ++ "."⟩) := by
  refine ⟨?_, ?_, ?_⟩
  · intro h
    simp [find_main_js, h]
  · intro f h hone
    simp [find_main_js, h, hone]
  · intro h h1 h2
    simp [find_main_js, h, h1, h2]

/-- Witness for C2 at three concrete directory listings. -/
theorem claim_C2_witness :
    find_main_js ⟨⟨0, "", ""⟩, true, ["Main.mjs"], fun _ => ⟨0, "", ""⟩⟩ "/out" =
      .ok "/out/Main.mjs"
    ∧ find_main_js ⟨⟨0, "", ""⟩, true, ["foo.mjs"], fun _ => ⟨0, "", ""⟩⟩ "/out" =
      .ok "/out/foo.mjs"
    ∧ find_main_js ⟨⟨0, "", ""⟩, true, ["readme.txt"], fun _ => ⟨0, "", ""⟩⟩ "/out" =
      .error ⟨"Main JavaScript file " ++ squoteStr ++ "Main.mjs" ++ squoteStr ++
        " not found in " ++ squoteStr ++ "/out" ++ squoteStr ++ "."⟩ := by
  refine ⟨?_, ?_, ?_⟩
  · have h := (claim_C2 ⟨⟨0, "", ""⟩, true, ["Main.mjs"], fun _ => ⟨0, "", ""⟩⟩ "/out").1
      (by decide)
    rw [h]
    rfl
  · have h := (claim_C2 ⟨⟨0, "", ""⟩, true, ["foo.mjs"], fun _ => ⟨0, "", ""⟩⟩ "/out").2.1
      "foo.mjs" (by decide) (by rfl)
    rw [h]
    rfl
  · have h := (claim_C2 ⟨⟨0, "", ""⟩, true, ["readme.txt"], fun _ => ⟨0, "", ""⟩⟩ "/out").2.2
      (by decide) (by rfl) (by rfl)
    rw [h]
    rfl

/-- C3: the scratch source file `source.bsq` written by the compile step is
absent from the working directory after `compile_bosque` — for every compiler
exit code, i.e. on success and on failure alike — and hence also after the
whole `compile_and_execute`, so a subsequent execution never observes it. -/
theorem claim_C3 (env : CompileEnv) (code work_dir : String) (fs : FsState) :
    (work_dir ++ "/source.bsq") ∉ ((compile_bosque env code work_dir fs).2).files
    ∧ (work_dir ++ "/source.bsq") ∉
        ((compile_and_execute env code work_dir fs).2).files := by
  have h2 : (compile_bosque env code work_dir fs).2 =
      removeFile (work_dir ++ "/source.bsq")
        (writeFile (work_dir ++ "/source.bsq") fs) := by
    unfold compile_bosque
    by_cases hc : env.compileResult.returncode = 0
    · by_cases hd : env.outputDirIsDir <;> simp [hc, hd]
    · simp [hc]
  have hb : (work_dir ++ "/source.bsq") ∉
      (removeFile (work_dir ++ "/source.bsq")
        (writeFile (work_dir ++ "/source.bsq") fs)).files := by
    simp [removeFile, List.mem_filter]
  exact ⟨h2 ▸ hb, (compile_and_execute_snd env code work_dir fs) ▸ h2 ▸ hb⟩

/-- C4: `do_execute` restores the process working directory on every outcome
path — success, Bridge failure, and the generic handler (modelled by the
`chdir` failure) — so the working directory after the call equals the one
before it. -/
theorem claim_C4 (env : KernelEnv) (code : String) (st : ProcState) :
    (do_execute env code st).2 = st := by
  unfold do_execute
  split
  · cases kernel_compile_and_execute env.bridge <;> rfl
  · rfl

/-- C5: when the Bridge fails, `do_execute` returns normally with the
structured error reply: status `error`, the error name
`BosqueExecutionError`, and the wrapped message text. -/
theorem claim_C5 (env : KernelEnv) (code : String) (st : ProcState)
    (e : BosqueExecutionError) (hch : env.chdirOk = true)
    (hb : env.bridge = .error e) :
    (do_execute env code st).1 =
      .errReply "BosqueExecutionError" ("Execution failed: " ++ e.msg)
    ∧ ((do_execute env code st).1).status = "error" := by
  simp [do_execute, hch, hb, kernel_compile_and_execute, ExecuteReply.status]

/-- Witness for C5 at a concrete failing request. -/
theorem claim_C5_witness :
    (do_execute ⟨"/tmp/k", true, .error ⟨"Compilation failed: boom"⟩⟩ "x" ⟨"/home"⟩).1 =
      .errReply "BosqueExecutionError" ("Execution failed: " ++ "Compilation failed: boom")
    ∧ ((do_execute ⟨"/tmp/k", true, .error ⟨"Compilation failed: boom"⟩⟩ "x"
        ⟨"/home"⟩).1).status = "error" :=
  claim_C5 ⟨"/tmp/k", true, .error ⟨"Compilation failed: boom"⟩⟩ "x" ⟨"/home"⟩
    ⟨"Compilation failed: boom"⟩ rfl rfl

/-- C6 (bug witness): with `bosque` (resp. `node`) missing from the search
path, `__init__` does fail — but, because the handler executes `raise es`
with `es` undefined, what escapes is `NameError("name 'es' is not defined")`,
not an error reporting the missing executable. -/
theorem claim_C6_bug :
    kernelInit ⟨true, none, some "/usr/bin/node"⟩ =
      .error (.nameError ("name " ++ squoteStr ++ "es" ++ squoteStr ++ " is not defined"))
    ∧ kernelInit ⟨true, some "/usr/bin/bosque", none⟩ =
      .error (.nameError ("name " ++ squoteStr ++ "es" ++ squoteStr ++ " is not defined"))
    ∧ kernelInitBody ⟨true, none, some "/usr/bin/node"⟩ =
      .error (.runtimeError (squoteStr ++ "bosque" ++ squoteStr ++
        " executable not found in PATH.")) :=
  ⟨rfl, rfl, rfl⟩

/-! ## Lexer helper lemmas -/

/-- Taking `runLen p cs` characters is taking the maximal `p`-run. -/
theorem take_runLen (p : Char → Bool) (cs : List Char) :
    cs.take (runLen p cs) = cs.takeWhile p := by
  induction cs with
  | nil => simp [runLen]
  | cons c rest ih =>
    by_cases h : p c
    · simp [runLen, List.takeWhile_cons, h] at ih ⊢
      exact ih
    · simp [runLen, List.takeWhile_cons, h]

/-- Dropping `runLen p cs` characters is dropping the maximal `p`-run. -/
theorem drop_runLen (p : Char → Bool) (cs : List Char) :
    cs.drop (runLen p cs) = cs.dropWhile p := by
  induction cs with
  | nil => simp [runLen]
  | cons c rest ih =>
    by_cases h : p c
    · simp [runLen, List.takeWhile_cons, h] at ih ⊢
      exact ih
    · simp [runLen, List.takeWhile_cons, List.dropWhile_cons, h]

/-- The character right after the maximal `p`-run does not satisfy `p`. -/
theorem runLen_drop_head (p : Char → Bool) (cs : List Char) (c : Char)
    (h : (cs.drop (runLen p cs)).head? = some c) : p c = false := by
  rw [drop_runLen] at h
  induction cs with
  | nil => simp at h
  | cons a rest ih =>
    by_cases hp : p a
    · rw [List.dropWhile_cons, if_pos hp] at h
      exact ih h
    · rw [List.dropWhile_cons, if_neg hp] at h
      simp at h
      rw [← h]
      simpa using hp

/-- Every character of the maximal `p`-run satisfies `p`; in particular its
last one does. -/
theorem runLen_take_getLast (p : Char → Bool) (cs : List Char)
    (h : 1 ≤ runLen p cs) :
    ∃ c, (cs.take (runLen p cs)).getLast? = some c ∧ p c = true := by
  rw [take_runLen]
  have hne : cs.takeWhile p ≠ [] := by
    intro he
    rw [runLen, he] at h
    simp at h
  obtain ⟨c, hc⟩ := List.getLast?_isSome.mpr hne |> Option.isSome_iff_exists.mp
  exact ⟨c, hc, List.mem_takeWhile_imp (List.mem_of_mem_getLast? hc)⟩

/-- After a nonempty maximal word run there is a word boundary. -/
theorem boundary_after_run (cs : List Char) (h : 1 ≤ runLen isWordChar cs) :
    boundaryAt cs (runLen isWordChar cs) = true := by
  obtain ⟨c, hc, hpc⟩ := runLen_take_getLast isWordChar cs h
  unfold boundaryAt boundaryB charAt
  rw [hc]
  cases hh : (cs.drop (runLen isWordChar cs)).head? with
  | none => simp [isWordO, hpc]
  | some d =>
    have := runLen_drop_head isWordChar cs d hh
    simp [isWordO, hpc, this]

/-- If `cs` starts with `p`, the prefix of `cs` of `p`'s length is `p`. -/
theorem startsList_take (p cs : List Char) (h : startsList p cs = true) :
    cs.take p.length = p := by
  induction p generalizing cs with
  | nil => simp
  | cons a as ih =>
    cases cs with
    | nil => simp [startsList] at h
    | cons b bs =>
      rw [startsList] at h
      simp at h
      obtain ⟨rfl, h2⟩ := h
      simp [ih bs h2]

/-- `findWordAlt` reports the length of one of its words, which occurs at the
front of the input. -/
theorem findWordAlt_sound : ∀ (ws : List String) (cs : List Char) (n : Nat),
    findWordAlt ws cs = some n →
    ∃ w ∈ ws, n = w.toList.length ∧ startsList w.toList cs = true := by
  intro ws
  induction ws with
  | nil => intro cs n h; simp [findWordAlt] at h
  | cons w ws ih =>
    intro cs n h
    unfold findWordAlt at h
    dsimp only at h
    split at h
    · rename_i hcond
      simp at hcond
      cases h
      exact ⟨w, by simp, rfl, hcond.1⟩
    · obtain ⟨w2, hw2, hn, hs⟩ := ih cs n h
      exact ⟨w2, by simp [hw2], hn, hs⟩

theorem matchSpace_pos (prev : Option Char) (cs : List Char) (n : Nat)
    (h : matchSpace prev cs = some n) : 1 ≤ n := by
  unfold matchSpace at h
  dsimp only at h
  split at h
  · simp at h
  · rename_i hne
    cases h
    omega

theorem matchCommentSingle_pos (prev : Option Char) (cs : List Char) (n : Nat)
    (h : matchCommentSingle prev cs = some n) : 1 ≤ n := by
  unfold matchCommentSingle at h
  split at h
  · cases h; omega
  · simp at h

theorem matchPctStarStar_pos (prev : Option Char) (cs : List Char) (n : Nat)
    (h : matchPctStarStar prev cs = some n) : 1 ≤ n := by
  unfold matchPctStarStar at h
  split at h
  · cases h; omega
  · simp at h

theorem matchPctStar_pos (prev : Option Char) (cs : List Char) (n : Nat)
    (h : matchPctStar prev cs = some n) : 1 ≤ n := by
  unfold matchPctStar at h
  split at h
  · cases h; omega
  · simp at h

theorem matchDQuote_pos (prev : Option Char) (cs : List Char) (n : Nat)
    (h : matchDQuote prev cs = some n) : 1 ≤ n := by
  unfold matchDQuote at h
  split at h
  · cases h; omega
  · simp at h

theorem matchSQuote_pos (prev : Option Char) (cs : List Char) (n : Nat)
    (h : matchSQuote prev cs = some n) : 1 ≤ n := by
  unfold matchSQuote at h
  split at h
  · split at h
    · cases h; omega
    · simp at h
  · simp at h

theorem matchKeywords_pos (prev : Option Char) (cs : List Char) (n : Nat)
    (h : matchKeywords prev cs = some n) : 1 ≤ n := by
  unfold matchKeywords at h
  split at h
  · obtain ⟨w, hw, rfl, _⟩ := findWordAlt_sound _ _ _ h
    have hlen : ∀ w ∈ KEYWORDS, 1 ≤ w.toList.length := by decide
    exact hlen w hw
  · simp at h

theorem matchConstLang_pos (prev : Option Char) (cs : List Char) (n : Nat)
    (h : matchConstLang prev cs = some n) : 1 ≤ n := by
  unfold matchConstLang at h
  split at h
  · obtain ⟨w, hw, rfl, _⟩ := findWordAlt_sound _ _ _ h
    have hlen : ∀ w ∈ CONSTANTS_LANGUAGE, 1 ≤ w.toList.length := by decide
    exact hlen w hw
  · simp at h

theorem branchA_pos (cs : List Char) (d n : Nat) (h : branchA cs d = some n) :
    1 ≤ n := by
  unfold branchA at h
  split at h
  · split at h
    · cases h; omega
    · simp at h
  · simp at h

theorem branchB_pos (cs : List Char) (d n : Nat) (h : branchB cs d = some n) :
    1 ≤ n := by
  unfold branchB at h
  dsimp only at h
  split at h
  · split at h
    · cases h; omega
    · simp at h
  · split at h
    · simp at h
    · split at h
      · split at h
        · cases h; omega
        · simp at h
      · simp at h
  · simp at h

theorem fdSuffix_pos (cs : List Char) (q n : Nat) (h : fdSuffix cs q = some n) :
    1 ≤ n := by
  unfold fdSuffix at h
  split at h
  · split at h
    · cases h; omega
    · simp at h
  · simp at h

theorem branchC_pos (cs : List Char) (d n : Nat) (h : branchC cs d = some n) :
    1 ≤ n := by
  unfold branchC at h
  dsimp only at h
  split at h
  · split at h
    · simp at h
    · split at h
      · split at h
        · split at h
          · simp at h
          · exact fdSuffix_pos _ _ _ h
        · exact fdSuffix_pos _ _ _ h
      · simp at h
  · simp at h

theorem matchNumeric_pos (prev : Option Char) (cs : List Char) (n : Nat)
    (h : matchNumeric prev cs = some n) : 1 ≤ n := by
  unfold matchNumeric at h
  dsimp only at h
  split at h
  · split at h
    · simp at h
    · rename_i hd
      split at h
      · cases h; rename_i m hm; exact branchA_pos _ _ _ hm
      · split at h
        · cases h; rename_i m hm; exact branchB_pos _ _ _ hm
        · split at h
          · cases h; rename_i m hm; exact branchC_pos _ _ _ hm
          · unfold branchD at h
            split at h
            · cases h; omega
            · simp at h
  · simp at h

theorem typesSeg_pos : ∀ (fuel : Nat) (cs : List Char) (n : Nat),
    typesSeg fuel cs = some n → 1 ≤ n := by
  intro fuel
  induction fuel with
  | zero => intro cs n h; simp [typesSeg] at h
  | succ f ih =>
    intro cs n h
    unfold typesSeg at h
    dsimp only at h
    split at h
    · split at h
      · rename_i hcond
        simp at hcond
        split at h
        · split at h
          · cases h; omega
          · split at h
            · cases h; omega
            · simp at h
        · split at h
          · cases h; omega
          · simp at h
      · simp at h
    · simp at h

theorem matchTypes_pos (prev : Option Char) (cs : List Char) (n : Nat)
    (h : matchTypes prev cs = some n) : 1 ≤ n := by
  unfold matchTypes at h
  split at h
  · split at h
    · rename_i m hm
      cases h
      exact typesSeg_pos _ _ _ hm
    · split at h
      · split at h
        · cases h; omega
        · simp at h
      · simp at h
  · simp at h

theorem matchVariables_pos (prev : Option Char) (cs : List Char) (n : Nat)
    (h : matchVariables prev cs = some n) : 1 ≤ n := by
  unfold matchVariables at h
  split at h
  · simp at h
  · split at h
    · split at h
      · split at h
        · cases h; omega
        · simp at h
      · split at h
        · cases h; omega
        · simp at h
    · simp at h

theorem matchFunctionName_pos (prev : Option Char) (cs : List Char) (n : Nat)
    (h : matchFunctionName prev cs = some n) : 1 ≤ n := by
  unfold matchFunctionName at h
  split at h
  · simp at h
  · split at h
    · dsimp only at h
      split at h
      · split at h
        · cases h; omega
        · simp at h
      · simp at h
    · simp at h

theorem matchOperators_pos (prev : Option Char) (cs : List Char) (n : Nat)
    (h : matchOperators prev cs = some n) : 1 ≤ n := by
  unfold matchOperators at h
  dsimp only at h
  split at h
  · simp at h
  · cases h; omega

theorem matchPunct_pos (prev : Option Char) (cs : List Char) (n : Nat)
    (h : matchPunct prev cs = some n) : 1 ≤ n := by
  unfold matchPunct at h
  split at h
  · split at h
    · cases h; omega
    · simp at h
  · simp at h

theorem matchCloseComment_pos (prev : Option Char) (cs : List Char) (n : Nat)
    (h : matchCloseComment prev cs = some n) : 1 ≤ n := by
  unfold matchCloseComment at h
  split at h
  · split at h
    · cases h; omega
    · simp at h
  · simp at h

theorem matchCommentPlain_pos (prev : Option Char) (cs : List Char) (n : Nat)
    (h : matchCommentPlain prev cs = some n) : 1 ≤ n := by
  unfold matchCommentPlain at h
  dsimp only at h
  split at h
  · simp at h
  · cases h; omega

theorem matchCommentSpecials_pos (prev : Option Char) (cs : List Char) (n : Nat)
    (h : matchCommentSpecials prev cs = some n) : 1 ≤ n := by
  unfold matchCommentSpecials at h
  dsimp only at h
  split at h
  · simp at h
  · cases h; omega

theorem matchEscQuote_pos (q : Char) (prev : Option Char) (cs : List Char) (n : Nat)
    (h : matchEscQuote q prev cs = some n) : 1 ≤ n := by
  unfold matchEscQuote at h
  split at h
  · split at h
    · cases h; omega
    · simp at h
  · simp at h

theorem matchEscAny_pos (prev : Option Char) (cs : List Char) (n : Nat)
    (h : matchEscAny prev cs = some n) : 1 ≤ n := by
  unfold matchEscAny at h
  split at h
  · split at h
    · cases h; omega
    · simp at h
  · simp at h

theorem matchStrBodyD_pos (prev : Option Char) (cs : List Char) (n : Nat)
    (h : matchStrBodyD prev cs = some n) : 1 ≤ n := by
  unfold matchStrBodyD at h
  dsimp only at h
  split at h
  · simp at h
  · cases h; omega

theorem matchStrBodyS_pos (prev : Option Char) (cs : List Char) (n : Nat)
    (h : matchStrBodyS prev cs = some n) : 1 ≤ n := by
  unfold matchStrBodyS at h
  dsimp only at h
  split at h
  · simp at h
  · cases h; omega

/-- Every rule of every state matches at least one character. -/
theorem rules_pos (st : LexState) :
    ∀ r ∈ rulesOf st, ∀ (prev : Option Char) (cs : List Char) (n : Nat),
      r.matcher prev cs = some n → 1 ≤ n := by
  intro r hr prev cs n h
  cases st <;>
    simp only [rulesOf, rootRules, commentMDRules, commentMRules, stringDRules,
      stringSRules, List.mem_cons, List.not_mem_nil, or_false] at hr
  case root =>
    rcases hr with rfl | rfl | rfl | rfl | rfl | rfl | rfl | rfl | rfl | rfl | rfl | rfl | rfl | rfl
    · exact matchSpace_pos prev cs n h
    · exact matchCommentSingle_pos prev cs n h
    · exact matchPctStarStar_pos prev cs n h
    · exact matchPctStar_pos prev cs n h
    · exact matchDQuote_pos prev cs n h
    · exact matchSQuote_pos prev cs n h
    · exact matchKeywords_pos prev cs n h
    · exact matchConstLang_pos prev cs n h
    · exact matchNumeric_pos prev cs n h
    · exact matchTypes_pos prev cs n h
    · exact matchVariables_pos prev cs n h
    · exact matchFunctionName_pos prev cs n h
    · exact matchOperators_pos prev cs n h
    · exact matchPunct_pos prev cs n h
  case commentMD =>
    rcases hr with rfl | rfl | rfl
    · exact matchCloseComment_pos prev cs n h
    · exact matchCommentPlain_pos prev cs n h
    · exact matchCommentSpecials_pos prev cs n h
  case commentM =>
    rcases hr with rfl | rfl | rfl
    · exact matchCloseComment_pos prev cs n h
    · exact matchCommentPlain_pos prev cs n h
    · exact matchCommentSpecials_pos prev cs n h
  case stringD =>
    rcases hr with rfl | rfl | rfl | rfl
    · exact matchEscQuote_pos squoteChar prev cs n h
    · exact matchEscAny_pos prev cs n h
    · exact matchStrBodyD_pos prev cs n h
    · exact matchDQuote_pos prev cs n h
  case stringS =>
    rcases hr with rfl | rfl | rfl | rfl
    · exact matchEscQuote_pos '"' prev cs n h
    · exact matchEscAny_pos prev cs n h
    · exact matchStrBodyS_pos prev cs n h
    · exact matchSQuote_pos prev cs n h

/-- A successful `tryRules` comes from one of the rules in the list. -/
theorem tryRules_sound : ∀ (rs : List LexRule) (prev : Option Char)
    (cs : List Char) (k : TokKind) (n : Nat) (st2 : LexState),
    tryRules rs prev cs = some (k, n, st2) →
    ∃ r ∈ rs, r.matcher prev cs = some n ∧ r.kind = k ∧ r.next = st2 := by
  intro rs
  induction rs with
  | nil => intro prev cs k n st2 h; simp [tryRules] at h
  | cons r rs ih =>
    intro prev cs k n st2 h
    unfold tryRules at h
    cases hm : r.matcher prev cs with
    | some m =>
      rw [hm] at h
      simp at h
      obtain ⟨hk, hn, hs⟩ := h
      exact ⟨r, by simp, by rw [← hn]; exact hm, hk, hs⟩
    | none =>
      rw [hm] at h
      obtain ⟨r2, h2, h3⟩ := ih prev cs k n st2 h
      exact ⟨r2, by simp [h2], h3⟩

/-- On a nonempty input every scanner step consumes at least one character. -/
theorem lexStep_pos (st : LexState) (prev : Option Char) (c : Char)
    (rest : List Char) : 1 ≤ (lexStep st prev (c :: rest)).2.1 := by
  unfold lexStep
  cases htr : tryRules (rulesOf st) prev (c :: rest) with
  | some out =>
    obtain ⟨k, n, st2⟩ := out
    obtain ⟨r, hr, hm, _, _⟩ := tryRules_sound _ _ _ _ _ _ htr
    simpa using rules_pos st r hr prev (c :: rest) n hm
  | none =>
    simp only [List.head?_cons]
    split <;> simp

/-- The token texts produced by the scanner tile the input exactly. -/
theorem scan_join : ∀ (fuel : Nat) (st : LexState) (prev : Option Char)
    (cs : List Char), cs.length ≤ fuel →
    joinTexts (scanFuel fuel st prev cs) = cs := by
  intro fuel
  induction fuel with
  | zero =>
    intro st prev cs h
    have hnil : cs = [] := List.length_eq_zero.mp (Nat.le_zero.mp h)
    subst hnil
    simp [scanFuel, joinTexts]
  | succ f ih =>
    intro st prev cs h
    cases cs with
    | nil => simp [scanFuel, joinTexts]
    | cons c rest =>
      have hpos := lexStep_pos st prev c rest
      rcases hs : lexStep st prev (c :: rest) with ⟨k, n, st2⟩
      rw [hs] at hpos
      dsimp only at hpos
      simp only [scanFuel, hs, joinTexts, List.map_cons, List.flatten_cons]
      have hlen : ((c :: rest).drop n).length ≤ f := by
        rw [List.length_drop]
        simp only [List.length_cons] at h ⊢
        omega
      have := ih st2 ((c :: rest).take n).getLast? ((c :: rest).drop n) hlen
      rw [joinTexts] at this
      rw [this]
      exact List.take_append_drop n (c :: rest)

/-- Every token emitted by the scanner is the step output at some state,
previous character and input suffix. -/
theorem mem_scanFuel : ∀ (fuel : Nat) (st : LexState) (prev : Option Char)
    (cs : List Char) (t : Tok), t ∈ scanFuel fuel st prev cs →
    ∃ (st2 : LexState) (prev2 : Option Char) (c : Char) (rest : List Char),
      t = ⟨(lexStep st2 prev2 (c :: rest)).1,
           (c :: rest).take (lexStep st2 prev2 (c :: rest)).2.1⟩ := by
  intro fuel
  induction fuel with
  | zero => intro st prev cs t h; simp [scanFuel] at h
  | succ f ih =>
    intro st prev cs t h
    cases cs with
    | nil => simp [scanFuel] at h
    | cons c rest =>
      rcases hs : lexStep st prev (c :: rest) with ⟨k, n, st2⟩
      simp only [scanFuel, hs, List.mem_cons] at h
      rcases h with rfl | h
      · exact ⟨st, prev, c, rest, by rw [hs]⟩
      · exact ih st2 _ _ t h

/-- An uppercase letter is a word character. -/
theorem isWordChar_of_upper (c : Char) (h : c.isUpper = true) :
    isWordChar c = true := by
  simp [isWordChar, Char.isAlpha, h]

/-- A run starting with a `p`-character has positive length. -/
theorem runLen_cons_pos (p : Char → Bool) (c : Char) (rest : List Char)
    (hp : p c = true) : runLen p (c :: rest) = runLen p rest + 1 := by
  simp [runLen, List.takeWhile_cons, hp]

/-- With an uppercase head and a word run of length at least two, the first
branch of `TYPES_REGEX` matches (whatever the qualifier recursion does, the
fallback to the final segment succeeds, the boundary after the maximal run
being automatic). -/
theorem typesSeg_some (f : Nat) (cs : List Char) (c : Char)
    (h1 : cs.head? = some c) (h2 : c.isUpper = true)
    (h3 : 2 ≤ runLen isWordChar cs) :
    ∃ n, typesSeg (f + 1) cs = some n := by
  have hb : boundaryAt cs (runLen isWordChar cs) = true :=
    boundary_after_run cs (by omega)
  unfold typesSeg
  rw [h1]
  dsimp only
  rw [if_pos (by simp [h2, h3])]
  split
  · cases htr : typesSeg f (cs.drop (runLen isWordChar cs + 2)) with
    | some t => simp [htr]
    | none => simp [htr, hb]
  · simp [hb]

/-- With an uppercase head at a word boundary, `TYPES_REGEX` matches. -/
theorem matchTypes_some (prev : Option Char) (cs : List Char) (c : Char)
    (h1 : cs.head? = some c) (h2 : c.isUpper = true)
    (hbd : boundaryB prev cs.head? = true) :
    ∃ n, matchTypes prev cs = some n := by
  unfold matchTypes
  rw [if_pos hbd]
  by_cases h3 : 2 ≤ runLen isWordChar cs
  · obtain ⟨n, hn⟩ := typesSeg_some cs.length cs c h1 h2 h3
    rw [hn]
    exact ⟨n, rfl⟩
  · cases hts : typesSeg (cs.length + 1) cs with
    | some t => exact ⟨t, rfl⟩
    | none =>
      rw [h1]
      dsimp only
      have hr1 : runLen isWordChar cs = 1 := by
        cases cs with
        | nil => simp at h1
        | cons a rest =>
          simp only [List.head?_cons, Option.some.injEq] at h1
          rw [runLen_cons_pos isWordChar a rest
            (isWordChar_of_upper a (by rw [h1]; exact h2))] at h3 ⊢
          omega
      have hb : boundaryAt cs 1 = true := by
        rw [← hr1]
        exact boundary_after_run cs (by omega)
      rw [if_pos (by simp [h2, hb])]
      exact ⟨1, rfl⟩

/-- With a lowercase/underscore head at a word boundary, `VARIABLES_REGEX`
matches the maximal word run. -/
theorem matchVariables_some (prev : Option Char) (c : Char) (rest : List Char)
    (h2 : (c = '_' || c.isLower) = true)
    (hbd : boundaryB prev (some c) = true) :
    matchVariables prev (c :: rest) = some (1 + runLen isWordChar rest) := by
  have hne : ¬(c = '$') := by
    intro he
    subst he
    exact absurd h2 (by decide)
  unfold matchVariables
  dsimp only
  rw [if_pos hbd, if_neg hne, if_pos h2]

/-- Whenever `FUNCTION_NAME_REGEX` matches, one of the two earlier rules
`TYPES_REGEX` (uppercase head) or `VARIABLES_REGEX` (lowercase/underscore
head) also matches, so the function-name rule can never be the first match. -/
theorem fn_unreachable (prev : Option Char) (cs : List Char) (n : Nat)
    (hf : matchFunctionName prev cs = some n) :
    (∃ m, matchTypes prev cs = some m) ∨ (∃ m, matchVariables prev cs = some m) := by
  unfold matchFunctionName at hf
  split at hf
  · simp at hf
  · rename_i c rest
    split at hf
    · rename_i hcond
      simp only [Bool.and_eq_true, Bool.or_eq_true] at hcond
      obtain ⟨hca, hbd⟩ := hcond
      have hcases : c.isUpper = true ∨ (c = '_' || c.isLower) = true := by
        rcases hca with hA | hU
        · rcases Bool.or_eq_true _ _ |>.mp (by simpa [Char.isAlpha] using hA) with h | h
          · exact Or.inl h
          · exact Or.inr (by simp [h])
        · exact Or.inr (by simp at hU; simp [hU])
      rcases hcases with hu | hl
      · exact Or.inl (matchTypes_some prev (c :: rest) c (by simp) hu
          (by simpa using hbd))
      · exact Or.inr ⟨_, matchVariables_some prev c rest hl hbd⟩
    · simp at hf

/-- Inversion for the root state's first match: a `Keyword` token can only
come from the keyword rule, and the function-name rule is never the first
match (the types or variables rule, tried earlier, matches whenever it does). -/
theorem tryRoot_inv (prev : Option Char) (cs : List Char) (k : TokKind)
    (n : Nat) (st2 : LexState)
    (h : tryRules rootRules prev cs = some (k, n, st2)) :
    (k = .keyword → matchKeywords prev cs = some n) ∧ k ≠ .nameFunction := by
  simp only [rootRules, tryRules] at h
  cases h1 : matchSpace prev cs with
  | some m => rw [h1] at h; try dsimp only at h; cases h
              exact ⟨fun hh => absurd hh (by decide), by decide⟩
  | none =>
  rw [h1] at h; try dsimp only at h
  cases h2 : matchCommentSingle prev cs with
  | some m => rw [h2] at h; try dsimp only at h; cases h
              exact ⟨fun hh => absurd hh (by decide), by decide⟩
  | none =>
  rw [h2] at h; try dsimp only at h
  cases h3 : matchPctStarStar prev cs with
  | some m => rw [h3] at h; try dsimp only at h; cases h
              exact ⟨fun hh => absurd hh (by decide), by decide⟩
  | none =>
  rw [h3] at h; try dsimp only at h
  cases h4 : matchPctStar prev cs with
  | some m => rw [h4] at h; try dsimp only at h; cases h
              exact ⟨fun hh => absurd hh (by decide), by decide⟩
  | none =>
  rw [h4] at h; try dsimp only at h
  cases h5 : matchDQuote prev cs with
  | some m => rw [h5] at h; try dsimp only at h; cases h
              exact ⟨fun hh => absurd hh (by decide), by decide⟩
  | none =>
  rw [h5] at h; try dsimp only at h
  cases h6 : matchSQuote prev cs with
  | some m => rw [h6] at h; try dsimp only at h; cases h
              exact ⟨fun hh => absurd hh (by decide), by decide⟩
  | none =>
  rw [h6] at h; try dsimp only at h
  cases h7 : matchKeywords prev cs with
  | some m => rw [h7] at h; try dsimp only at h; cases h
              exact ⟨fun _ => rfl, by decide⟩
  | none =>
  rw [h7] at h; try dsimp only at h
  cases h8 : matchConstLang prev cs with
  | some m => rw [h8] at h; try dsimp only at h; cases h
              exact ⟨fun hh => absurd hh (by decide), by decide⟩
  | none =>
  rw [h8] at h; try dsimp only at h
  cases h9 : matchNumeric prev cs with
  | some m => rw [h9] at h; try dsimp only at h; cases h
              exact ⟨fun hh => absurd hh (by decide), by decide⟩
  | none =>
  rw [h9] at h; try dsimp only at h
  cases h10 : matchTypes prev cs with
  | some m => rw [h10] at h; try dsimp only at h; cases h
              exact ⟨fun hh => absurd hh (by decide), by decide⟩
  | none =>
  rw [h10] at h; try dsimp only at h
  cases h11 : matchVariables prev cs with
  | some m => rw [h11] at h; try dsimp only at h; cases h
              exact ⟨fun hh => absurd hh (by decide), by decide⟩
  | none =>
  rw [h11] at h; try dsimp only at h
  cases h12 : matchFunctionName prev cs with
  | some m =>
    exfalso
    rcases fn_unreachable prev cs m h12 with ⟨t, ht⟩ | ⟨v, hv⟩
    · rw [h10] at ht; exact Option.noConfusion ht
    · rw [h11] at hv; exact Option.noConfusion hv
  | none =>
  rw [h12] at h; try dsimp only at h
  cases h13 : matchOperators prev cs with
  | some m => rw [h13] at h; try dsimp only at h; cases h
              exact ⟨fun hh => absurd hh (by decide), by decide⟩
  | none =>
  rw [h13] at h; try dsimp only at h
  cases h14 : matchPunct prev cs with
  | some m => rw [h14] at h; try dsimp only at h; cases h
              exact ⟨fun hh => absurd hh (by decide), by decide⟩
  | none =>
  rw [h14] at h; try dsimp only at h
  exact Option.noConfusion h

/-- Step-level inversion: a `Keyword` token comes only from the keyword rule,
and no step ever emits a `Name.Function` token. -/
theorem lexStep_inv (st : LexState) (prev : Option Char) (cs : List Char) :
    ((lexStep st prev cs).1 = .keyword →
      matchKeywords prev cs = some (lexStep st prev cs).2.1)
    ∧ (lexStep st prev cs).1 ≠ .nameFunction := by
  unfold lexStep
  cases htr : tryRules (rulesOf st) prev cs with
  | none =>
    dsimp only
    cases hh : cs.head? with
    | none =>
      dsimp only
      exact ⟨fun hk => TokKind.noConfusion hk, fun hk => TokKind.noConfusion hk⟩
    | some c =>
      dsimp only
      by_cases hc : c = '\n'
      · rw [if_pos hc]
        exact ⟨fun hk => TokKind.noConfusion hk, fun hk => TokKind.noConfusion hk⟩
      · rw [if_neg hc]
        exact ⟨fun hk => TokKind.noConfusion hk, fun hk => TokKind.noConfusion hk⟩
  | some out =>
    obtain ⟨k, n, st2⟩ := out
    dsimp only
    cases st
    case root => exact tryRoot_inv prev cs k n st2 htr
    case commentMD =>
      obtain ⟨r, hr, hm, hkind, _⟩ := tryRules_sound _ _ _ _ _ _ htr
      simp only [rulesOf, commentMDRules, List.mem_cons, List.not_mem_nil,
        or_false] at hr
      have hk : k = .commentMultiline := by
        rcases hr with rfl | rfl | rfl <;> exact hkind.symm
      subst hk
      exact ⟨fun hc => absurd hc (by decide), by decide⟩
    case commentM =>
      obtain ⟨r, hr, hm, hkind, _⟩ := tryRules_sound _ _ _ _ _ _ htr
      simp only [rulesOf, commentMRules, List.mem_cons, List.not_mem_nil,
        or_false] at hr
      have hk : k = .commentMultiline := by
        rcases hr with rfl | rfl | rfl <;> exact hkind.symm
      subst hk
      exact ⟨fun hc => absurd hc (by decide), by decide⟩
    case stringD =>
      obtain ⟨r, hr, hm, hkind, _⟩ := tryRules_sound _ _ _ _ _ _ htr
      simp only [rulesOf, stringDRules, List.mem_cons, List.not_mem_nil,
        or_false] at hr
      have hk : k = .stringEscape ∨ k = .stringDouble := by
        rcases hr with rfl | rfl | rfl | rfl
        · exact Or.inl hkind.symm
        · exact Or.inl hkind.symm
        · exact Or.inr hkind.symm
        · exact Or.inr hkind.symm
      rcases hk with rfl | rfl <;>
        exact ⟨fun hc => absurd hc (by decide), by decide⟩
    case stringS =>
      obtain ⟨r, hr, hm, hkind, _⟩ := tryRules_sound _ _ _ _ _ _ htr
      simp only [rulesOf, stringSRules, List.mem_cons, List.not_mem_nil,
        or_false] at hr
      have hk : k = .stringEscape ∨ k = .stringSingle := by
        rcases hr with rfl | rfl | rfl | rfl
        · exact Or.inl hkind.symm
        · exact Or.inl hkind.symm
        · exact Or.inr hkind.symm
        · exact Or.inr hkind.symm
      rcases hk with rfl | rfl <;>
        exact ⟨fun hc => absurd hc (by decide), by decide⟩

/-- A keyword match's text is exactly one of the keywords. -/
theorem matchKeywords_text (prev : Option Char) (cs : List Char) (n : Nat)
    (h : matchKeywords prev cs = some n) :
    cs.take n ∈ KEYWORDS.map String.toList := by
  unfold matchKeywords at h
  split at h
  · obtain ⟨w, hw, rfl, hs⟩ := findWordAlt_sound _ _ _ h
    rw [startsList_take _ _ hs]
    exact List.mem_map_of_mem _ hw
  · simp at h

/-! ## Lexer claims -/

/-- C7: for every input text the tokens produced by the tokenizer tile the
input exactly — the concatenation of the token texts equals the input, with
no gaps and no overlaps — and at a position where no rule of the current
state matches (and which is not the newline reset), the scanner consumes
exactly one character as an `Error` token and continues in the same state. -/
theorem claim_C7 (s : List Char) :
    joinTexts (tokenize s) = s
    ∧ (∀ (st : LexState) (prev : Option Char) (c : Char) (rest : List Char),
        tryRules (rulesOf st) prev (c :: rest) = none → c ≠ '\n' →
        lexStep st prev (c :: rest) = (.errorTok, 1, st)) := by
  constructor
  · exact scan_join (s.length + 1) .root none s (Nat.le_succ _)
  · intro st prev c rest htr hc
    unfold lexStep
    rw [htr]
    simp [hc]

/-- Witness for C7: a concrete tiling, and the one-character `Error` fallback
at `:` (which no root rule matches). -/
theorem claim_C7_witness :
    joinTexts (tokenize (':' :: ['x'])) = ':' :: ['x']
    ∧ lexStep .root none [':'] = (.errorTok, 1, .root) :=
  ⟨(claim_C7 (':' :: ['x'])).1,
   (claim_C7 []).2 .root none ':' [] (by decide) (by decide)⟩

/-- C8: keyword matching is word-boundary-exact — every `Keyword` token's
text is exactly one of the keywords, so an identifier that merely has a
keyword as a prefix (such as `iffy`) is never classified as a keyword —
`42` is one Number-kind (`Constant.Numeric`) token, and `42i` is one
Number-kind token including the suffix, not a Number token followed by a
Variable token. -/
theorem claim_C8 :
    (∀ (s : List Char) (t : Tok), t ∈ tokenize s → t.kind = .keyword →
      t.text ∈ KEYWORDS.map String.toList)
    ∧ tokenize "iffy".toList = [⟨.nameVariable, "iffy".toList⟩]
    ∧ tokenize "42".toList = [⟨.constantNumeric, "42".toList⟩]
    ∧ tokenize "42i".toList = [⟨.constantNumeric, "42i".toList⟩] := by
  refine ⟨?_, by decide, by decide, by decide⟩
  intro s t ht hk
  obtain ⟨st2, prev2, c, rest, rfl⟩ := mem_scanFuel _ _ _ _ t ht
  have h1 := (lexStep_inv st2 prev2 (c :: rest)).1 hk
  exact matchKeywords_text prev2 (c :: rest) _ h1

/-- Witness for C8: the token `if` of `if x` is a keyword with text exactly a
keyword of the list; `iffy` is a single variable token. -/
theorem claim_C8_witness :
    (⟨.keyword, "if".toList⟩ : Tok).text ∈ KEYWORDS.map String.toList
    ∧ tokenize "iffy".toList = [⟨.nameVariable, "iffy".toList⟩] :=
  ⟨claim_C8.1 "if x".toList ⟨.keyword, "if".toList⟩ (by decide) rfl,
   claim_C8.2.1⟩

/-- C10: the tokenizer never produces a `Name.Function` token: whenever the
function-call-position rule could match, the earlier types rule
(uppercase-led) or variables rule (lowercase/underscore-led) already matches,
so the rule is unreachable. -/
theorem claim_C10 (s : List Char) (t : Tok) (ht : t ∈ tokenize s) :
    t.kind ≠ .nameFunction := by
  obtain ⟨st2, prev2, c, rest, rfl⟩ := mem_scanFuel _ _ _ _ t ht
  exact (lexStep_inv st2 prev2 (c :: rest)).2

/-- Witness for C10: the tokens of `foo(` — a call position — are a variable
and a parenthesis, not a `Name.Function`. -/
theorem claim_C10_witness :
    (⟨.nameVariable, "foo".toList⟩ : Tok).kind ≠ .nameFunction :=
  claim_C10 "foo(".toList ⟨.nameVariable, "foo".toList⟩ (by decide)

/-- If every element satisfies `p`, `takeWhile` keeps the whole list. -/
theorem takeWhile_all (p : Char → Bool) : ∀ (l : List Char),
    (∀ x ∈ l, p x = true) → l.takeWhile p = l := by
  intro l
  induction l with
  | nil => simp
  | cons a r ih =>
    intro h
    rw [List.takeWhile_cons, if_pos (h a (by simp))]
    rw [ih (fun x hx => h x (by simp [hx]))]

/-- `*%`-freeness passes to the tail. -/
theorem hasStarPct_tail (c : Char) (rest : List Char)
    (h : hasStarPct (c :: rest) = false) : hasStarPct rest = false := by
  cases hb : hasStarPct rest
  · rfl
  · rw [hasStarPct, hb] at h
    simp at h

/-- `*%`-freeness passes to every suffix. -/
theorem hasStarPct_drop (n : Nat) : ∀ (s : List Char), hasStarPct s = false →
    hasStarPct (s.drop n) = false := by
  induction n with
  | zero => intro s h; simpa using h
  | succ m ih =>
    intro s h
    cases s with
    | nil => simpa using h
    | cons c rest =>
      rw [List.drop_succ_cons]
      exact ih rest (hasStarPct_tail c rest h)

/-- A failed `tryRules` means every rule's matcher failed. -/
theorem tryRules_none : ∀ (rs : List LexRule) (prev : Option Char)
    (cs : List Char), tryRules rs prev cs = none →
    ∀ r ∈ rs, r.matcher prev cs = none := by
  intro rs
  induction rs with
  | nil => simp
  | cons r rs ih =>
    intro prev cs h r2 hr2
    unfold tryRules at h
    cases hm : r.matcher prev cs with
    | some m => rw [hm] at h; simp at h
    | none =>
      rw [hm] at h
      rcases List.mem_cons.mp hr2 with rfl | hmem
      · exact hm
      · exact ih prev cs h r2 hmem

/-- In the `comment-multiline` state, when the close marker does not match,
the step emits a `Comment.Multiline` token and stays in the comment state. -/
theorem stepComment_kind (prev : Option Char) (c : Char) (rest : List Char)
    (hclose : matchCloseComment prev (c :: rest) = none) :
    (lexStep .commentM prev (c :: rest)).1 = .commentMultiline ∧
    (lexStep .commentM prev (c :: rest)).2.2 = .commentM := by
  unfold lexStep
  cases htr : tryRules (rulesOf .commentM) prev (c :: rest) with
  | some out =>
    obtain ⟨k, n, st2⟩ := out
    obtain ⟨r, hr, hm, hkind, hnext⟩ := tryRules_sound _ _ _ _ _ _ htr
    simp only [rulesOf, commentMRules, List.mem_cons, List.not_mem_nil,
      or_false] at hr
    rcases hr with rfl | rfl | rfl
    · have hcm : matchCloseComment prev (c :: rest) = some n := hm
      rw [hclose] at hcm
      exact Option.noConfusion hcm
    · exact ⟨hkind.symm, hnext.symm⟩
    · exact ⟨hkind.symm, hnext.symm⟩
  | none =>
    exfalso
    have hplain := tryRules_none _ _ _ htr ⟨matchCommentPlain, .commentMultiline, .commentM⟩
      (by simp [rulesOf, commentMRules])
    have hspec := tryRules_none _ _ _ htr ⟨matchCommentSpecials, .commentMultiline, .commentM⟩
      (by simp [rulesOf, commentMRules])
    by_cases hx : (c = '*' || c = '%') = true
    · have hp : (c = '*' || c = '/' || c = '%') = true := by
        rcases Bool.or_eq_true _ _ |>.mp hx with h | h <;> simp [h]
      have hsp2 : matchCommentSpecials prev (c :: rest) = none := hspec
      unfold matchCommentSpecials at hsp2
      dsimp only at hsp2
      rw [runLen_cons_pos _ c rest hp] at hsp2
      simp at hsp2
    · have hp : (!(c = '*' || c = '%')) = true := by
        simp only [Bool.not_eq_true'] 
        exact Bool.not_eq_true _ |>.mp hx
      have hpl2 : matchCommentPlain prev (c :: rest) = none := hplain
      unfold matchCommentPlain at hpl2
      dsimp only at hpl2
      rw [runLen_cons_pos _ c rest hp] at hpl2
      simp at hpl2

/-- Tokens scanned in the `comment-multiline` state over `*%`-free text are
all `Comment.Multiline`. -/
theorem scan_commentM : ∀ (fuel : Nat) (s : List Char) (prev : Option Char),
    s.length ≤ fuel → hasStarPct s = false →
    ∀ t ∈ scanFuel fuel .commentM prev s, t.kind = .commentMultiline := by
  intro fuel
  induction fuel with
  | zero => intro s prev h hns t ht; simp [scanFuel] at ht
  | succ f ih =>
    intro s prev h hns t ht
    cases s with
    | nil => simp [scanFuel] at ht
    | cons c rest =>
      have hclose : matchCloseComment prev (c :: rest) = none := by
        unfold matchCloseComment
        cases rest with
        | nil => rfl
        | cons c2 r2 =>
          dsimp only
          rw [if_neg]
          intro hcc
          simp only [Bool.and_eq_true, decide_eq_true_eq] at hcc
          rw [hasStarPct] at hns
          rw [hcc.1] at hns
          simp [hcc.2] at hns
      obtain ⟨hk, hst⟩ := stepComment_kind prev c rest hclose
      have hpos := lexStep_pos .commentM prev c rest
      rcases hs : lexStep .commentM prev (c :: rest) with ⟨k2, n2, st3⟩
      rw [hs] at hk hst hpos
      dsimp only at hk hst hpos
      subst hk
      subst hst
      simp only [scanFuel, hs, List.mem_cons] at ht
      rcases ht with rfl | ht
      · rfl
      · apply ih ((c :: rest).drop n2) _ _ (hasStarPct_drop n2 _ hns) t ht
        rw [List.length_drop]
        simp only [List.length_cons] at h ⊢
        omega

/-- In the `comment-multiline-double-dash` state (entered by `%**`), when the
close marker does not match, the step emits a `Comment.Multiline` token and
stays in the state — its rules are those of `comment-multiline` with a
different stay state. -/
theorem stepCommentMD_kind (prev : Option Char) (c : Char) (rest : List Char)
    (hclose : matchCloseComment prev (c :: rest) = none) :
    (lexStep .commentMD prev (c :: rest)).1 = .commentMultiline ∧
    (lexStep .commentMD prev (c :: rest)).2.2 = .commentMD := by
  unfold lexStep
  cases htr : tryRules (rulesOf .commentMD) prev (c :: rest) with
  | some out =>
    obtain ⟨k, n, st2⟩ := out
    obtain ⟨r, hr, hm, hkind, hnext⟩ := tryRules_sound _ _ _ _ _ _ htr
    simp only [rulesOf, commentMDRules, List.mem_cons, List.not_mem_nil,
      or_false] at hr
    rcases hr with rfl | rfl | rfl
    · have hcm : matchCloseComment prev (c :: rest) = some n := hm
      rw [hclose] at hcm
      exact Option.noConfusion hcm
    · exact ⟨hkind.symm, hnext.symm⟩
    · exact ⟨hkind.symm, hnext.symm⟩
  | none =>
    exfalso
    have hplain := tryRules_none _ _ _ htr ⟨matchCommentPlain, .commentMultiline, .commentMD⟩
      (by simp [rulesOf, commentMDRules])
    have hspec := tryRules_none _ _ _ htr ⟨matchCommentSpecials, .commentMultiline, .commentMD⟩
      (by simp [rulesOf, commentMDRules])
    by_cases hx : (c = '*' || c = '%') = true
    · have hp : (c = '*' || c = '/' || c = '%') = true := by
        rcases Bool.or_eq_true _ _ |>.mp hx with h | h <;> simp [h]
      have hsp2 : matchCommentSpecials prev (c :: rest) = none := hspec
      unfold matchCommentSpecials at hsp2
      dsimp only at hsp2
      rw [runLen_cons_pos _ c rest hp] at hsp2
      simp at hsp2
    · have hp : (!(c = '*' || c = '%')) = true := by
        simp only [Bool.not_eq_true']
        exact Bool.not_eq_true _ |>.mp hx
      have hpl2 : matchCommentPlain prev (c :: rest) = none := hplain
      unfold matchCommentPlain at hpl2
      dsimp only at hpl2
      rw [runLen_cons_pos _ c rest hp] at hpl2
      simp at hpl2

/-- Tokens scanned in the `comment-multiline-double-dash` state over `*%`-free
text are all `Comment.Multiline`. -/
theorem scan_commentMD : ∀ (fuel : Nat) (s : List Char) (prev : Option Char),
    s.length ≤ fuel → hasStarPct s = false →
    ∀ t ∈ scanFuel fuel .commentMD prev s, t.kind = .commentMultiline := by
  intro fuel
  induction fuel with
  | zero => intro s prev h hns t ht; simp [scanFuel] at ht
  | succ f ih =>
    intro s prev h hns t ht
    cases s with
    | nil => simp [scanFuel] at ht
    | cons c rest =>
      have hclose : matchCloseComment prev (c :: rest) = none := by
        unfold matchCloseComment
        cases rest with
        | nil => rfl
        | cons c2 r2 =>
          dsimp only
          rw [if_neg]
          intro hcc
          simp only [Bool.and_eq_true, decide_eq_true_eq] at hcc
          rw [hasStarPct] at hns
          rw [hcc.1] at hns
          simp [hcc.2] at hns
      obtain ⟨hk, hst⟩ := stepCommentMD_kind prev c rest hclose
      have hpos := lexStep_pos .commentMD prev c rest
      rcases hs : lexStep .commentMD prev (c :: rest) with ⟨k2, n2, st3⟩
      rw [hs] at hk hst hpos
      dsimp only at hk hst hpos
      subst hk
      subst hst
      simp only [scanFuel, hs, List.mem_cons] at ht
      rcases ht with rfl | ht
      · rfl
      · apply ih ((c :: rest).drop n2) _ _ (hasStarPct_drop n2 _ hns) t ht
        rw [List.length_drop]
        simp only [List.length_cons] at h ⊢
        omega

/-- At a `"` the root state pushes `string-double` after the quote token. -/
theorem step_root_dquote (prev : Option Char) (s : List Char) :
    lexStep .root prev ('"' :: s) = (.stringDouble, 1, .stringD) := by
  have h1 : matchSpace prev ('"' :: s) = none := rfl
  have h2 : matchCommentSingle prev ('"' :: s) = none := rfl
  have h3 : matchPctStarStar prev ('"' :: s) = none := rfl
  have h4 : matchPctStar prev ('"' :: s) = none := rfl
  have h5 : matchDQuote prev ('"' :: s) = some 1 := rfl
  unfold lexStep
  simp only [rulesOf, rootRules, tryRules, h1, h2, h3, h4, h5]

/-- At `%*` not followed by another `*`, the root state pushes
`comment-multiline` after the marker token. -/
theorem step_root_pctStar (prev : Option Char) (s : List Char)
    (hhd : s.head? ≠ some '*') :
    lexStep .root prev ('%' :: '*' :: s) = (.commentMultiline, 2, .commentM) := by
  have h1 : matchSpace prev ('%' :: '*' :: s) = none := rfl
  have h2 : matchCommentSingle prev ('%' :: '*' :: s) = none := rfl
  have h3 : matchPctStarStar prev ('%' :: '*' :: s) = none := by
    cases s with
    | nil => rfl
    | cons a s2 =>
      have ha : ¬(a = '*') := by
        intro he
        exact hhd (by simp [he])
      unfold matchPctStarStar
      split
      · rename_i heq
        simp at heq
        exact absurd heq.1 ha
      · rfl
  have h4 : matchPctStar prev ('%' :: '*' :: s) = some 2 := rfl
  unfold lexStep
  simp only [rulesOf, rootRules, tryRules, h1, h2, h3, h4]

/-- At `%**` the root state pushes `comment-multiline-double-dash` after the
three-character marker token. -/
theorem step_root_pctStarStar (prev : Option Char) (s : List Char) :
    lexStep .root prev ('%' :: '*' :: '*' :: s) =
      (.commentMultiline, 3, .commentMD) := by
  have h1 : matchSpace prev ('%' :: '*' :: '*' :: s) = none := rfl
  have h2 : matchCommentSingle prev ('%' :: '*' :: '*' :: s) = none := rfl
  have h3 : matchPctStarStar prev ('%' :: '*' :: '*' :: s) = some 3 := rfl
  unfold lexStep
  simp only [rulesOf, rootRules, tryRules, h1, h2, h3]

/-- In the `string-double` state, text free of quotes and backslashes is
consumed whole as one `String.Double` token, staying in the state. -/
theorem step_stringD_body (prev : Option Char) (c : Char) (rest : List Char)
    (hq : '"' ∉ c :: rest) (hb : '\\' ∉ c :: rest) :
    lexStep .stringD prev (c :: rest) =
      (.stringDouble, (c :: rest).length, .stringD) := by
  have hc1 : ¬(c = '\\') := fun he => hb (by simp [he])
  have hesc1 : matchEscQuote squoteChar prev (c :: rest) = none := by
    unfold matchEscQuote
    cases rest with
    | nil => rfl
    | cons c2 r2 =>
      dsimp only
      rw [if_neg]
      simp [hc1]
  have hesc2 : matchEscAny prev (c :: rest) = none := by
    unfold matchEscAny
    cases rest with
    | nil => rfl
    | cons c2 r2 =>
      dsimp only
      rw [if_neg]
      simp [hc1]
  have hbody : matchStrBodyD prev (c :: rest) = some (c :: rest).length := by
    unfold matchStrBodyD
    dsimp only
    have hall : (c :: rest).takeWhile (fun x => !(x = '"' || x = '\\')) = c :: rest := by
      apply takeWhile_all
      intro x hx
      have hxq : ¬(x = '"') := fun he => hq (he ▸ hx)
      have hxb : ¬(x = '\\') := fun he => hb (he ▸ hx)
      simp [hxq, hxb]
    rw [runLen, hall]
    simp
  unfold lexStep
  simp only [rulesOf, stringDRules, tryRules, hesc1, hesc2, hbody]

/-- C9 (amended): an input ending inside an unterminated double-quoted string
whose remainder contains no quote and no backslash is consumed to the end of
input without error, yielding the opening-quote `String` token and, when the
remainder is nonempty, one more `String` token for it — one or more String
tokens, not exactly one; and an input ending inside an unterminated block
comment of either style (`%*…` entering `comment-multiline`, `%**…` entering
`comment-multiline-double-dash`; no close marker `*%` scanned after the
opening `%*`) terminates, consuming to the end of input as `Comment` tokens. -/
theorem claim_C9_amended :
    (∀ s : List Char, '"' ∉ s → '\\' ∉ s →
      tokenize ('"' :: s) = ⟨.stringDouble, ['"']⟩ ::
        (if s = [] then [] else [⟨.stringDouble, s⟩]))
    ∧ (∀ s : List Char, hasStarPct s = false →
        (∀ t ∈ tokenize ('%' :: '*' :: s), t.kind = .commentMultiline)
        ∧ joinTexts (tokenize ('%' :: '*' :: s)) = '%' :: '*' :: s) := by
  constructor
  · intro s hq hb
    have hstep := step_root_dquote none s
    unfold tokenize
    simp only [List.length_cons, scanFuel, hstep, List.take_succ_cons,
      List.take_zero, List.drop_succ_cons, List.drop_zero]
    cases s with
    | nil => simp [scanFuel]
    | cons c rest =>
      have hstep2 := step_stringD_body (['"'].getLast?) c rest hq hb
      simp only [List.length_cons, scanFuel, hstep2, List.take_length,
        List.drop_length]
      simp [scanFuel]
  · intro s hns
    constructor
    · intro t ht
      by_cases hhd : s.head? = some '*'
      · -- the `%**` style: the marker is three characters and the scanner
        -- continues in the `comment-multiline-double-dash` state
        obtain ⟨s2, rfl⟩ : ∃ s2, s = '*' :: s2 := by
          cases s with
          | nil => simp at hhd
          | cons a s2 =>
            simp only [List.head?_cons, Option.some.injEq] at hhd
            exact ⟨s2, by rw [hhd]⟩
        have hstep := step_root_pctStarStar none s2
        unfold tokenize at ht
        simp only [List.length_cons, scanFuel, hstep, List.take_succ_cons,
          List.take_zero, List.drop_succ_cons, List.drop_zero,
          List.mem_cons] at ht
        rcases ht with rfl | ht
        · rfl
        · exact scan_commentMD _ s2 _ (by omega) (hasStarPct_tail _ _ hns) t ht
      · -- the `%*` style
        have hstep := step_root_pctStar none s hhd
        unfold tokenize at ht
        simp only [List.length_cons, scanFuel, hstep, List.take_succ_cons,
          List.take_zero, List.drop_succ_cons, List.drop_zero,
          List.mem_cons] at ht
        rcases ht with rfl | ht
        · rfl
        · exact scan_commentM _ s _ (by omega) hns t ht
    · exact scan_join (('%' :: '*' :: s).length + 1) .root none _ (Nat.le_succ _)

/-- C9 counterexample: for the input `"ab` — which ends inside an
unterminated double-quoted string — the tokenizer yields two `String` tokens
(the opening quote and the content), not one. -/
theorem claim_C9_counterexample :
    tokenize ('"' :: ['a', 'b']) =
      [⟨.stringDouble, ['"']⟩, ⟨.stringDouble, ['a', 'b']⟩]
    ∧ (tokenize ('"' :: ['a', 'b'])).length ≠ 1 :=
  ⟨by decide, by decide⟩

/-- Witness for the amended C9 at concrete inputs, covering both block-comment
styles (`%*hi` and `%**hi`). -/
theorem claim_C9_witness :
    tokenize ('"' :: ['x']) = [⟨.stringDouble, ['"']⟩, ⟨.stringDouble, ['x']⟩]
    ∧ (⟨.commentMultiline, ['%', '*']⟩ : Tok).kind = .commentMultiline
    ∧ joinTexts (tokenize ('%' :: '*' :: ['h', 'i'])) = '%' :: '*' :: ['h', 'i']
    ∧ (⟨.commentMultiline, ['%', '*', '*']⟩ : Tok).kind = .commentMultiline
    ∧ joinTexts (tokenize ('%' :: '*' :: ['*', 'h', 'i'])) =
        '%' :: '*' :: ['*', 'h', 'i'] := by
  refine ⟨?_, ?_, ?_, ?_, ?_⟩
  · have h := claim_C9_amended.1 ['x'] (by decide) (by decide)
    rw [h]
    decide
  · exact (claim_C9_amended.2 ['h', 'i'] (by decide)).1
      ⟨.commentMultiline, ['%', '*']⟩ (by decide)
  · exact (claim_C9_amended.2 ['h', 'i'] (by decide)).2
  · exact (claim_C9_amended.2 ['*', 'h', 'i'] (by decide)).1
      ⟨.commentMultiline, ['%', '*', '*']⟩ (by decide)
  · exact (claim_C9_amended.2 ['*', 'h', 'i'] (by decide)).2
